import Mathlib

/-!
Shallow embedding of the protobuf writer in src/src/writer.rs of
quick-protobuf. The Rust type `Writer<W: Write>` wraps a byte sink; we
model the sink state as the list of bytes written so far together with an
optional budget of bytes the underlying `Write` implementation still
accepts before it fails with an I/O error. A budget of `none` models an
infallible sink such as `Vec<u8>`. Every writer method returns
`Result<()>`; we model a call result as the final sink state plus an error
flag, and the `?` operator as `wbind`, which short-circuits on error while
keeping the bytes already written (the borrowed sink is never rolled
back). Machine integers: u64/u32/usize become `Nat`; i32/i64 become `Int`
restricted to their two-complement ranges, with every cast spelled out as
an explicit `% 2^w` pattern operation.
-/

/-- State of the underlying byte sink (the `W: Write` parameter). -/
structure Sink where
  written : List Nat
  budget : Option Nat
deriving DecidableEq, Repr

/-- Result of one writer call: final sink state plus an error flag,
modelling `Result<()>` together with the borrowed sink. -/
structure WRes where
  sink : Sink
  err : Bool
deriving DecidableEq, Repr

/-- The `?` operator: stop at the first error, keep the bytes written. -/
def wbind (r : WRes) (f : Sink → WRes) : WRes :=
  if r.err then r else f r.sink

/-- `write_u8`: append one byte, or fail when the budget is exhausted. -/
def Sink.write_u8 (s : Sink) (b : Nat) : WRes :=
  match s.budget with
  | none => ⟨⟨s.written ++ [b], none⟩, false⟩
  | some 0 => ⟨s, true⟩
  | some (k+1) => ⟨⟨s.written ++ [b], some k⟩, false⟩

/-- `write_all`: write the bytes in order, stopping at the first failure
(bytes accepted before the failure stay written). -/
def Sink.write_all (s : Sink) (bytes : List Nat) : WRes :=
  match bytes with
  | [] => ⟨s, false⟩
  | b :: rest => wbind (s.write_u8 b) (fun s2 => s2.write_all rest)

/-- Pure byte list produced by `Writer::write_varint` on a healthy sink;
proved below (`emits_write_varint`) to match the stateful embedding. -/
def varint (v : Nat) : List Nat :=
  if h : 0x7F < v then (((v % 256) &&& 0x7F) ||| 0x80) :: varint (v >>> 7)
  else [v % 256]
termination_by v
decreasing_by
  have h7 : v >>> 7 = v / 2 ^ 7 := Nat.shiftRight_eq_div_pow v 7
  rw [h7]
  exact Nat.div_lt_self (by omega) (by norm_num)

/-- `Writer::write_varint`: while `v > 0x7F` emit `((v as u8) & 0x7F) | 0x80`
and shift `v` right by 7, then emit the final byte `v as u8`. -/
def Writer.write_varint (v : Nat) (s : Sink) : WRes :=
  if h : 0x7F < v then
    wbind (s.write_u8 (((v % 256) &&& 0x7F) ||| 0x80))
      (fun s2 => Writer.write_varint (v >>> 7) s2)
  else
    s.write_u8 (v % 256)
termination_by v
decreasing_by
  have h7 : v >>> 7 = v / 2 ^ 7 := Nat.shiftRight_eq_div_pow v 7
  rw [h7]
  exact Nat.div_lt_self (by omega) (by norm_num)

/-- Two-complement 32-bit pattern of an integer (reinterpretation as u32). -/
def pat32 (x : Int) : Nat := (x % (2 ^ 32 : Int)).toNat

/-- Signed i32 value of a 32-bit pattern. -/
def asI32 (p : Nat) : Int := if p < 2 ^ 31 then (p : Int) else (p : Int) - 2 ^ 32

/-- Rust `v << 1` on i32: shift left by one, high bit discarded (wraps). -/
def i32Shl1 (v : Int) : Int := asI32 ((pat32 v * 2) % 2 ^ 32)

/-- Rust `v >> 31` on i32: arithmetic shift right by 31, leaving only copies
of the sign bit, hence -1 for a negative value and 0 otherwise. -/
def i32Sar31 (v : Int) : Int := if v < 0 then -1 else 0

/-- Rust `a ^ b` on i32: bitwise xor of the two-complement patterns. -/
def i32Xor (a b : Int) : Int := asI32 (pat32 a ^^^ pat32 b)

/-- Two-complement 64-bit pattern of an integer. -/
def pat64 (x : Int) : Nat := (x % (2 ^ 64 : Int)).toNat

/-- Signed i64 value of a 64-bit pattern. -/
def asI64 (p : Nat) : Int := if p < 2 ^ 63 then (p : Int) else (p : Int) - 2 ^ 64

/-- Rust `v << 1` on i64: shift left by one, high bit discarded (wraps). -/
def i64Shl1 (v : Int) : Int := asI64 ((pat64 v * 2) % 2 ^ 64)

/-- Rust `v >> 63` on i64: arithmetic shift right by 63. -/
def i64Sar63 (v : Int) : Int := if v < 0 then -1 else 0

/-- Rust `a ^ b` on i64: bitwise xor of the two-complement patterns. -/
def i64Xor (a b : Int) : Int := asI64 (pat64 a ^^^ pat64 b)

/-- Rust `v as u64` on a signed value: the 64-bit two-complement pattern,
i.e. sign-extension for i32 and the raw pattern for i64. -/
def toU64 (x : Int) : Nat := (x % (2 ^ 64 : Int)).toNat

/-- `Writer::write_tag`: `self.write_varint(tag as u64)`. -/
def Writer.write_tag (tag : Nat) (s : Sink) : WRes :=
  Writer.write_varint tag s

/-- `Writer::write_int32`: `self.write_varint(v as u64)` (sign-extending). -/
def Writer.write_int32 (v : Int) (s : Sink) : WRes :=
  Writer.write_varint (toU64 v) s

/-- `Writer::write_int64`: `self.write_varint(v as u64)`. -/
def Writer.write_int64 (v : Int) (s : Sink) : WRes :=
  Writer.write_varint (toU64 v) s

/-- `Writer::write_uint32`: `self.write_varint(v as u64)`. -/
def Writer.write_uint32 (v : Nat) (s : Sink) : WRes :=
  Writer.write_varint v s

/-- `Writer::write_uint64`: `self.write_varint(v)`. -/
def Writer.write_uint64 (v : Nat) (s : Sink) : WRes :=
  Writer.write_varint v s

/-- `Writer::write_sint32`: `self.write_varint(((v << 1) ^ (v >> 31)) as u64)`
with the shifts and xor performed in i32 arithmetic before the cast. -/
def Writer.write_sint32 (v : Int) (s : Sink) : WRes :=
  Writer.write_varint (toU64 (i32Xor (i32Shl1 v) (i32Sar31 v))) s

/-- `Writer::write_sint64`: `self.write_varint(((v << 1) ^ (v >> 63)) as u64)`
with the shifts and xor performed in i64 arithmetic before the cast. -/
def Writer.write_sint64 (v : Int) (s : Sink) : WRes :=
  Writer.write_varint (toU64 (i64Xor (i64Shl1 v) (i64Sar63 v))) s

/-- `Writer::write_enum`: `self.write_int32(v)`. -/
def Writer.write_enum (v : Int) (s : Sink) : WRes :=
  Writer.write_int32 v s

/-- `Writer::write_bytes`: `self.write_varint(bytes.len() as u64)?` then
`self.inner.write_all(bytes)`. -/
def Writer.write_bytes (bytes : List Nat) (s : Sink) : WRes :=
  wbind (Writer.write_varint bytes.length s) (fun s2 => s2.write_all bytes)

/-- UTF-8 byte representation of a Rust `&str` (`s.as_bytes()`). -/
def strBytes (s : String) : List Nat :=
  s.toUTF8.toList.map (fun b => b.toNat)

/-- `Writer::write_string`: `self.write_bytes(s.as_bytes())`. -/
def Writer.write_string (str : String) (s : Sink) : WRes :=
  Writer.write_bytes (strBytes str) s

/-- The `for m in v { write(self, m)?; }` loop of the packed writers. -/
def writeSeq {M : Type} (write : Sink → M → WRes) : List M → Sink → WRes
  | [], s => ⟨s, false⟩
  | m :: rest, s => wbind (write s m) (fun s2 => writeSeq write rest s2)

/-- `Writer::write_packed_repeated_field`: nothing for an empty slice, else
the summed item sizes as a varint length then each element in order. -/
def Writer.write_packed_repeated_field {M : Type} (v : List M)
    (write : Sink → M → WRes) (size : M → Nat) (s : Sink) : WRes :=
  if v.isEmpty then ⟨s, false⟩
  else
    wbind (Writer.write_varint ((v.map size).sum) s)
      (fun s2 => writeSeq write v s2)

/-- `Writer::write_packed_fixed_size`: reinterprets the element slice as the
raw byte run of length `v.len() * item_size` and hands it to `write_bytes`.
`itemBytes` gives each element its in-memory little-endian byte layout, so
the region behind the slice is the concatenation of those layouts and
`from_raw_parts` takes its first `v.len() * item_size` bytes. There is no
empty-slice check in the source. -/
def Writer.write_packed_fixed_size {M : Type} (itemBytes : M → List Nat)
    (v : List M) (item_size : Nat) (s : Sink) : WRes :=
  Writer.write_bytes (((v.map itemBytes).flatten).take (v.length * item_size)) s

/-- The `MessageWrite` capability: an exact size and a serializer. -/
structure MessageWrite where
  get_size : Nat
  write_message : Sink → WRes

/-- `Writer::write_message`: `self.write_varint(m.get_size() as u64)?` then
`m.write_message(self)`. -/
def Writer.write_message (m : MessageWrite) (s : Sink) : WRes :=
  wbind (Writer.write_varint m.get_size s) m.write_message

/-- `Writer::write_int32_with_tag`: tag then `self.write_varint(v as u64)`. -/
def Writer.write_int32_with_tag (tag : Nat) (v : Int) (s : Sink) : WRes :=
  wbind (Writer.write_tag tag s) (fun s2 => Writer.write_varint (toU64 v) s2)

/-- `Writer::write_packed_repeated_field_with_tag`: nothing for an empty
slice (not even the tag), else tag, summed sizes as one varint length, then
each element in order with no per-element tag. -/
def Writer.write_packed_repeated_field_with_tag {M : Type} (tag : Nat)
    (v : List M) (write : Sink → M → WRes) (size : M → Nat) (s : Sink) : WRes :=
  if v.isEmpty then ⟨s, false⟩
  else
    wbind (Writer.write_tag tag s)
      (fun s2 => wbind (Writer.write_varint ((v.map size).sum) s2)
        (fun s3 => writeSeq write v s3))

/-- `Writer::write_packed_fixed_size_with_tag`: nothing for an empty slice,
else tag then the raw byte run of length `v.len() * item_size`. -/
def Writer.write_packed_fixed_size_with_tag {M : Type} (itemBytes : M → List Nat)
    (tag : Nat) (v : List M) (item_size : Nat) (s : Sink) : WRes :=
  if v.isEmpty then ⟨s, false⟩
  else
    wbind (Writer.write_tag tag s)
      (fun s2 =>
        Writer.write_bytes (((v.map itemBytes).flatten).take (v.length * item_size)) s2)

/-- Bytes a writer call leaves in an initially empty, infallible sink. -/
def outBytes (f : Sink → WRes) : List Nat :=
  (f ⟨[], none⟩).sink.written

/-- The 32-bit zigzag transform as the spec words it: `(v << 1) ^ (v >> 31)`
read as an unsigned 32-bit value. -/
def zigzag32_spec (v : Int) : Nat :=
  ((v * 2) % (2 ^ 32 : Int)).toNat ^^^ (if v < 0 then 2 ^ 32 - 1 else 0)

/-- The 64-bit zigzag transform as the spec words it: `(v << 1) ^ (v >> 63)`
read as an unsigned 64-bit value. -/
def zigzag64_spec (v : Int) : Nat :=
  ((v * 2) % (2 ^ 64 : Int)).toNat ^^^ (if v < 0 then 2 ^ 64 - 1 else 0)

/-- Full input/output behaviour of one writer call: on an infallible sink it
appends `out` and succeeds; on a sink accepting at least `out.length` more
bytes it appends `out` and decreases the budget; on a smaller budget `k` it
appends exactly the first `k` bytes of `out` and reports an error. -/
def Emits (f : Sink → WRes) (out : List Nat) : Prop :=
  (∀ w, f ⟨w, none⟩ = ⟨⟨w ++ out, none⟩, false⟩) ∧
  (∀ w k, out.length ≤ k →
    f ⟨w, some k⟩ = ⟨⟨w ++ out, some (k - out.length)⟩, false⟩) ∧
  (∀ w k, k < out.length →
    f ⟨w, some k⟩ = ⟨⟨w ++ out.take k, some 0⟩, true⟩)

theorem emits_write_u8 (b : Nat) : Emits (fun s => s.write_u8 b) [b] := by
  refine ⟨fun w => rfl, fun w k hk => ?_, fun w k hk => ?_⟩
  · match k, hk with
    | k + 1, _ => simp [Sink.write_u8]
  · match k, hk with
    | 0, _ => simp [Sink.write_u8]

theorem emits_pure : Emits (fun s => ⟨s, false⟩) [] := by
  refine ⟨fun w => by simp, fun w k hk => by simp, fun w k hk => by simp at hk⟩

theorem emits_seq {f g : Sink → WRes} {a b : List Nat}
    (hf : Emits f a) (hg : Emits g b) :
    Emits (fun s => wbind (f s) g) (a ++ b) := by
  obtain ⟨hf0, hf1, hf2⟩ := hf
  obtain ⟨hg0, hg1, hg2⟩ := hg
  refine ⟨fun w => ?_, fun w k hk => ?_, fun w k hk => ?_⟩
  · show wbind (f ⟨w, none⟩) g = _
    rw [hf0, wbind]
    simp only [Bool.false_eq_true, if_false, hg0, List.append_assoc]
  · show wbind (f ⟨w, some k⟩) g = _
    rw [List.length_append] at hk
    rw [hf1 w k (by omega), wbind]
    simp only [Bool.false_eq_true, if_false]
    rw [hg1 _ _ (by omega)]
    have hb : k - a.length - b.length = k - (a ++ b).length := by
      rw [List.length_append]
      omega
    rw [hb, List.append_assoc]
  · show wbind (f ⟨w, some k⟩) g = _
    rw [List.length_append] at hk
    by_cases hka : k < a.length
    · rw [hf2 w k hka, wbind]
      simp only [if_true]
      rw [List.take_append_of_le_length (by omega)]
    · rw [hf1 w k (by omega), wbind]
      simp only [Bool.false_eq_true, if_false]
      rw [hg2 _ _ (by omega)]
      have ht : (a ++ b).take k = a ++ b.take (k - a.length) := by
        rw [List.take_append_eq_append_take,
          List.take_of_length_le (by omega : a.length ≤ k)]
      rw [ht, List.append_assoc]

theorem emits_write_all (bytes : List Nat) :
    Emits (fun s => s.write_all bytes) bytes := by
  induction bytes with
  | nil => exact emits_pure
  | cons b rest ih =>
    have h := emits_seq (emits_write_u8 b) ih
    refine ⟨fun w => ?_, fun w k hk => ?_, fun w k hk => ?_⟩
    · exact h.1 w
    · exact h.2.1 w k (by simpa using hk)
    · exact h.2.2 w k (by simpa using hk)

theorem emits_write_varint (v : Nat) :
    Emits (Writer.write_varint v) (varint v) := by
  induction v using Nat.strong_induction_on with
  | _ v ih =>
    by_cases h : 0x7F < v
    · have hv : varint v = (((v % 256) &&& 0x7F) ||| 0x80) :: varint (v >>> 7) := by
        rw [varint]
        simp [h]
      have hw : Writer.write_varint v = fun s =>
          wbind (s.write_u8 (((v % 256) &&& 0x7F) ||| 0x80))
            (fun s2 => Writer.write_varint (v >>> 7) s2) := by
        funext s
        rw [Writer.write_varint]
        simp [h]
      have hlt : v >>> 7 < v := by
        rw [Nat.shiftRight_eq_div_pow]
        exact Nat.div_lt_self (by omega) (by norm_num)
      have := emits_seq (emits_write_u8 (((v % 256) &&& 0x7F) ||| 0x80))
        (ih (v >>> 7) hlt)
      rw [hv, hw]
      simpa using this
    · have hv : varint v = [v % 256] := by
        rw [varint]
        simp [h]
      have hw : Writer.write_varint v = fun s => s.write_u8 (v % 256) := by
        funext s
        rw [Writer.write_varint]
        simp [h]
      rw [hv, hw]
      exact emits_write_u8 (v % 256)

theorem emits_write_bytes (bytes : List Nat) :
    Emits (Writer.write_bytes bytes) (varint bytes.length ++ bytes) :=
  emits_seq (emits_write_varint bytes.length) (emits_write_all bytes)

theorem emits_writeSeq {M : Type} (write : Sink → M → WRes) (em : M → List Nat) :
    ∀ v : List M, (∀ m ∈ v, Emits (fun s => write s m) (em m)) →
      Emits (writeSeq write v) ((v.map em).flatten) := by
  intro v
  induction v with
  | nil =>
    intro _
    exact emits_pure
  | cons m rest ih =>
    intro hall
    have h := emits_seq (hall m (by simp))
      (ih (fun x hx => hall x (by simp [hx])))
    simpa [writeSeq] using h

theorem varint_length_pos (v : Nat) : 1 ≤ (varint v).length := by
  rw [varint]
  split
  · simp
  · simp

theorem varint_length_le (k : Nat) :
    ∀ v : Nat, 1 ≤ k → v < 2 ^ (7 * k) → (varint v).length ≤ k := by
  induction k with
  | zero =>
    intro v hk _
    omega
  | succ k ih =>
    intro v _ hv
    rw [varint]
    split
    · rename_i h
      have hk1 : 1 ≤ k := by
        by_contra hk0
        have : k = 0 := by omega
        subst this
        simp at hv
        omega
      have hlt : v >>> 7 < 2 ^ (7 * k) := by
        rw [Nat.shiftRight_eq_div_pow]
        have : v < 2 ^ 7 * 2 ^ (7 * k) := by
          calc v < 2 ^ (7 * (k + 1)) := hv
          _ = 2 ^ 7 * 2 ^ (7 * k) := by ring
        exact Nat.div_lt_of_lt_mul this
      have := ih (v >>> 7) hk1 hlt
      simpa using this
    · simp

theorem varint_length_ge (k : Nat) :
    ∀ v : Nat, 2 ^ (7 * k) ≤ v → k < (varint v).length := by
  induction k with
  | zero =>
    intro v _
    exact varint_length_pos v
  | succ k ih =>
    intro v hv
    have h128 : 0x7F < v := by
      have : (2 : Nat) ^ 7 ≤ 2 ^ (7 * (k + 1)) :=
        Nat.pow_le_pow_right (by norm_num) (by omega)
      norm_num at this
      omega
    rw [varint]
    rw [dif_pos h128]
    have hge : 2 ^ (7 * k) ≤ v >>> 7 := by
      rw [Nat.shiftRight_eq_div_pow]
      rw [Nat.le_div_iff_mul_le (by norm_num)]
      calc 2 ^ (7 * k) * 2 ^ 7 = 2 ^ (7 * (k + 1)) := by ring
      _ ≤ v := hv
    have := ih (v >>> 7) hge
    simpa using this

theorem varint_length_ten {v : Nat} (h1 : 2 ^ 63 ≤ v) (h2 : v < 2 ^ 64) :
    (varint v).length = 10 := by
  have hge := varint_length_ge 9 v (by norm_num at h1 ⊢; omega)
  have hle := varint_length_le 10 v (by norm_num)
    (by
      have : (2 : Nat) ^ 64 ≤ 2 ^ (7 * 10) := Nat.pow_le_pow_right (by norm_num) (by norm_num)
      omega)
  omega

theorem mod256_and_127 (v : Nat) : (v % 256) &&& 0x7F = v &&& 0x7F := by
  have h : v % 256 = v &&& 255 := by
    have := Nat.and_pow_two_sub_one_eq_mod v 8
    norm_num at this
    omega
  have h2 : (255 : Nat) &&& 127 = 127 := by decide
  rw [h, Nat.and_assoc, h2]

theorem pat32_asI32 {p : Nat} (hp : p < 2 ^ 32) : pat32 (asI32 p) = p := by
  unfold pat32 asI32
  split
  · omega
  · omega

theorem pat64_asI64 {p : Nat} (hp : p < 2 ^ 64) : pat64 (asI64 p) = p := by
  unfold pat64 asI64
  split
  · omega
  · omega

theorem pat32_i32Shl1 (v : Int) : pat32 (i32Shl1 v) = ((v * 2) % (2 ^ 32 : Int)).toNat := by
  unfold i32Shl1
  rw [pat32_asI32 (Nat.mod_lt _ (by norm_num))]
  unfold pat32
  omega

theorem pat64_i64Shl1 (v : Int) : pat64 (i64Shl1 v) = ((v * 2) % (2 ^ 64 : Int)).toNat := by
  unfold i64Shl1
  rw [pat64_asI64 (Nat.mod_lt _ (by norm_num))]
  unfold pat64
  omega

theorem pat32_i32Sar31 (v : Int) :
    pat32 (i32Sar31 v) = if v < 0 then 2 ^ 32 - 1 else 0 := by
  unfold i32Sar31 pat32
  split
  · omega
  · omega

theorem pat64_i64Sar63 (v : Int) :
    pat64 (i64Sar63 v) = if v < 0 then 2 ^ 64 - 1 else 0 := by
  unfold i64Sar63 pat64
  split
  · omega
  · omega

theorem zigzag32_spec_lt (v : Int) : zigzag32_spec v < 2 ^ 32 := by
  unfold zigzag32_spec
  apply Nat.xor_lt_two_pow
  · omega
  · split
    · norm_num
    · norm_num

theorem zigzag64_spec_lt (v : Int) : zigzag64_spec v < 2 ^ 64 := by
  unfold zigzag64_spec
  apply Nat.xor_lt_two_pow
  · omega
  · split
    · norm_num
    · norm_num

/-- The u64 value `write_sint32` actually feeds to `write_varint` is the
32-bit zigzag pattern sign-extended to 64 bits. -/
theorem sint32_value (v : Int) :
    toU64 (i32Xor (i32Shl1 v) (i32Sar31 v)) =
      (if zigzag32_spec v < 2 ^ 31 then zigzag32_spec v
        else zigzag32_spec v + (2 ^ 64 - 2 ^ 32)) := by
  unfold i32Xor
  rw [pat32_i32Shl1, pat32_i32Sar31]
  have hz : ((v * 2) % (2 ^ 32 : Int)).toNat ^^^ (if v < 0 then 2 ^ 32 - 1 else 0) =
      zigzag32_spec v := rfl
  rw [hz]
  have hlt := zigzag32_spec_lt v
  unfold toU64 asI32
  split
  · omega
  · omega

/-- The u64 value `write_sint64` feeds to `write_varint` is exactly the
64-bit zigzag pattern. -/
theorem sint64_value (v : Int) :
    toU64 (i64Xor (i64Shl1 v) (i64Sar63 v)) = zigzag64_spec v := by
  unfold i64Xor
  rw [pat64_i64Shl1, pat64_i64Sar63]
  have hz : ((v * 2) % (2 ^ 64 : Int)).toNat ^^^ (if v < 0 then 2 ^ 64 - 1 else 0) =
      zigzag64_spec v := rfl
  rw [hz]
  have hlt := zigzag64_spec_lt v
  unfold toU64 asI64
  split
  · omega
  · omega

theorem le_or_128 (a : Nat) : 128 ≤ a ||| 128 := by
  by_contra hlt
  push_neg at hlt
  have h7 : (a ||| 128).testBit 7 = false :=
    Nat.testBit_eq_false_of_lt (by norm_num; omega)
  rw [Nat.testBit_or] at h7
  have ht : Nat.testBit 128 7 = true := by decide
  simp [ht] at h7

theorem varint_getLastD_lt (v : Nat) : ∀ d, (varint v).getLastD d < 0x80 := by
  induction v using Nat.strong_induction_on with
  | _ v ih =>
    intro d
    rw [varint]
    split
    · rename_i h
      have hlt : v >>> 7 < v := by
        rw [Nat.shiftRight_eq_div_pow]
        exact Nat.div_lt_self (by omega) (by norm_num)
      rw [List.getLastD_cons]
      exact ih (v >>> 7) hlt _
    · rename_i h
      show v % 256 < 128
      omega

theorem varint_dropLast_ge (v : Nat) : ∀ b ∈ (varint v).dropLast, 0x80 ≤ b := by
  induction v using Nat.strong_induction_on with
  | _ v ih =>
    intro b hb
    rw [varint] at hb
    split at hb
    · rename_i h
      have hne : varint (v >>> 7) ≠ [] :=
        List.ne_nil_of_length_pos (varint_length_pos (v >>> 7))
      rw [List.dropLast_cons_of_ne_nil hne] at hb
      rcases List.mem_cons.mp hb with hb1 | hb2
      · subst hb1
        exact le_or_128 _
      · have hlt : v >>> 7 < v := by
          rw [Nat.shiftRight_eq_div_pow]
          exact Nat.div_lt_self (by omega) (by norm_num)
        exact ih (v >>> 7) hlt b hb2
    · simp at hb

/-- Claim C1: `write_varint` emits `(v & 0x7F) | 0x80` while `v > 0x7F`,
shifting `v` right 7 bits each step, then a final byte without the 0x80
continuation bit; `write_varint(0) = [0x00]`, `write_varint(127) = [0x7F]`,
`write_varint(128) = [0x80, 0x01]`, `write_varint(2^64-1)` is exactly 10
bytes, and every output is 1 to 10 bytes long. -/
theorem write_varint_correct (v : Nat) (w : List Nat) (h : v < 2 ^ 64) :
    Writer.write_varint v ⟨w, none⟩ = ⟨⟨w ++ varint v, none⟩, false⟩ ∧
    (0x7F < v → varint v = ((v &&& 0x7F) ||| 0x80) :: varint (v >>> 7)) ∧
    (v ≤ 0x7F → varint v = [v]) ∧
    (varint v).getLastD 0 < 0x80 ∧
    (∀ b ∈ (varint v).dropLast, 0x80 ≤ b) ∧
    varint 0 = [0x00] ∧ varint 127 = [0x7F] ∧ varint 128 = [0x80, 0x01] ∧
    (varint (2 ^ 64 - 1)).length = 10 ∧
    1 ≤ (varint v).length ∧ (varint v).length ≤ 10 := by
  refine ⟨(emits_write_varint v).1 w, ?_, ?_, varint_getLastD_lt v 0,
    varint_dropLast_ge v, by simp [varint], by simp [varint], ?_, ?_, varint_length_pos v, ?_⟩
  · intro hv
    rw [varint, dif_pos hv, mod256_and_127]
  · intro hv
    rw [varint, dif_neg (by omega), Nat.mod_eq_of_lt (by omega)]
  · simp [varint]
    decide
  · refine varint_length_ten (by norm_num) (by norm_num)
  · exact varint_length_le 10 v (by norm_num)
      (lt_of_lt_of_le h (by norm_num))

/-- Witness for C1 at the concrete input v = 300. -/
theorem write_varint_correct_witness :
    (300 : Nat) < 2 ^ 64 ∧
      Writer.write_varint 300 ⟨[], none⟩ = ⟨⟨[] ++ varint 300, none⟩, false⟩ :=
  ⟨by norm_num, (write_varint_correct 300 [] (by norm_num)).1⟩

/-- Claim C9: a negative int32 value is sign-extended to u64 by
`write_int32` (and `write_enum`, which delegates to it), so its varint is
the full 10 bytes and coincides with what `write_int64` emits for the same
mathematical value. -/
theorem negative_int32_ten_bytes (v : Int) (w : List Nat)
    (h1 : -(2 ^ 31) ≤ v) (h2 : v < 0) :
    Writer.write_int32 v ⟨w, none⟩ = ⟨⟨w ++ varint (toU64 v), none⟩, false⟩ ∧
    (varint (toU64 v)).length = 10 ∧
    Writer.write_int32 v ⟨w, none⟩ = Writer.write_int64 v ⟨w, none⟩ ∧
    Writer.write_enum v ⟨w, none⟩ = Writer.write_int32 v ⟨w, none⟩ := by
  refine ⟨(emits_write_varint (toU64 v)).1 w, ?_, rfl, rfl⟩
  have hb1 : 2 ^ 63 ≤ toU64 v := by
    unfold toU64
    omega
  have hb2 : toU64 v < 2 ^ 64 := by
    unfold toU64
    omega
  exact varint_length_ten hb1 hb2

/-- Witness for C9 at the concrete input v = -1. -/
theorem negative_int32_ten_bytes_witness :
    (-(2 ^ 31) : Int) ≤ -1 ∧ (-1 : Int) < 0 ∧ (varint (toU64 (-1))).length = 10 :=
  ⟨by norm_num, by norm_num,
    (negative_int32_ten_bytes (-1) [] (by norm_num) (by norm_num)).2.1⟩

/-- Claim C10: `write_tag` forwards any u32 value to `write_varint` with no
validation; tags carrying the unsupported group wire types 3 and 4 are
emitted unchanged, and on a healthy sink the call reports no error. -/
theorem write_tag_no_validation (t : Nat) (w : List Nat) (h : t < 2 ^ 32) :
    Writer.write_tag t ⟨w, none⟩ = ⟨⟨w ++ varint t, none⟩, false⟩ ∧
    (Writer.write_tag t ⟨w, none⟩).err = false ∧
    outBytes (Writer.write_tag 11) = [11] ∧
    outBytes (Writer.write_tag 12) = [12] := by
  refine ⟨(emits_write_varint t).1 w, ?_, ?_, ?_⟩
  · rw [show Writer.write_tag t ⟨w, none⟩ = ⟨⟨w ++ varint t, none⟩, false⟩ from
      (emits_write_varint t).1 w]
  · simp [outBytes, Writer.write_tag, Writer.write_varint, Sink.write_u8]
  · simp [outBytes, Writer.write_tag, Writer.write_varint, Sink.write_u8]

/-- Witness for C10 at the concrete tag 11 = (1 << 3) | 3, a group-start
wire type. -/
theorem write_tag_no_validation_witness :
    (11 : Nat) < 2 ^ 32 ∧
      Writer.write_tag 11 ⟨[], none⟩ = ⟨⟨[] ++ varint 11, none⟩, false⟩ :=
  ⟨by norm_num, (write_tag_no_validation 11 [] (by norm_num)).1⟩

/-- Claim C7: writing an int32 field numbered 1 (tag 8 = (1 << 3) | 0) with
value 300 emits exactly the bytes [0x08, 0xAC, 0x02]. -/
theorem int32_field1_value300_bytes :
    outBytes (Writer.write_int32_with_tag 8 300) = [0x08, 0xAC, 0x02] ∧
    (8 : Nat) = (1 <<< 3) ||| 0 := by
  constructor
  · simp [outBytes, Writer.write_int32_with_tag, Writer.write_tag, wbind,
      Writer.write_varint, Sink.write_u8, toU64] <;> decide
  · decide

/-- Claim C6: `write_bytes` writes the varint of the byte length followed
by exactly the bytes, and `write_string` delegates to `write_bytes` on the
UTF-8 byte representation with no validity check of its own. -/
theorem write_bytes_write_string_layout (b : List Nat) (str : String)
    (σ : Sink) (w : List Nat) :
    Writer.write_bytes b ⟨w, none⟩ = ⟨⟨w ++ (varint b.length ++ b), none⟩, false⟩ ∧
    Writer.write_string str σ = Writer.write_bytes (strBytes str) σ :=
  ⟨(emits_write_bytes b).1 w, rfl⟩

theorem outBytes_write_varint (n : Nat) :
    outBytes (Writer.write_varint n) = varint n := by
  unfold outBytes
  rw [(emits_write_varint n).1 []]
  simp

/-- Counterexample to claim C2 as stated: at v = 2^30 = 1073741824 the i32
zigzag intermediate is negative and `as u64` sign-extends it, so
write_sint32 does not write the varint of the unsigned 32-bit zigzag value
(it writes a 10-byte varint where the 32-bit value takes 5 bytes). -/
theorem sint32_not_u32_zigzag :
    Writer.write_sint32 1073741824 ⟨[], none⟩ ≠
      ⟨⟨varint (zigzag32_spec 1073741824), none⟩, false⟩ := by
  have hN : toU64 (i32Xor (i32Shl1 (1073741824 : Int)) (i32Sar31 (1073741824 : Int))) =
      18446744071562067968 := by decide
  have e2 : zigzag32_spec 1073741824 = 2147483648 := by decide
  have L1 : (varint 18446744071562067968).length = 10 :=
    varint_length_ten (by norm_num) (by norm_num)
  have L2 : (varint 2147483648).length ≤ 5 :=
    varint_length_le 5 _ (by norm_num) (by norm_num)
  intro h
  rw [Writer.write_sint32, hN, (emits_write_varint 18446744071562067968).1 [], e2] at h
  have hl : varint 18446744071562067968 = varint 2147483648 := by
    simp only [WRes.mk.injEq, Sink.mk.injEq, List.nil_append] at h
    exact h.1.1
  have hL := congrArg List.length hl
  rw [L1] at hL
  omega

/-- Claim C2 (amended): write_sint32 writes the varint of the 64-bit
sign-extension of the 32-bit zigzag pattern (v << 1) ^ (v >> 31) — equal to
the unsigned 32-bit zigzag value exactly when that value is below 2^31 —
and write_sint64 writes the varint of the 64-bit zigzag transform; the
zigzag transform maps -1 to 1, 1 to 2 and 0 to 0. -/
theorem sint32_sint64_zigzag (v32 v64 : Int) (w : List Nat)
    (h32a : -(2 ^ 31) ≤ v32) (h32b : v32 < 2 ^ 31)
    (h64a : -(2 ^ 63) ≤ v64) (h64b : v64 < 2 ^ 63) :
    Writer.write_sint32 v32 ⟨w, none⟩ =
      ⟨⟨w ++ varint (if zigzag32_spec v32 < 2 ^ 31 then zigzag32_spec v32
          else zigzag32_spec v32 + (2 ^ 64 - 2 ^ 32)), none⟩, false⟩ ∧
    Writer.write_sint64 v64 ⟨w, none⟩ =
      ⟨⟨w ++ varint (zigzag64_spec v64), none⟩, false⟩ ∧
    zigzag32_spec (-1) = 1 ∧ zigzag32_spec 1 = 2 ∧ zigzag32_spec 0 = 0 ∧
    zigzag64_spec (-1) = 1 ∧ zigzag64_spec 1 = 2 ∧ zigzag64_spec 0 = 0 := by
  refine ⟨?_, ?_, by decide, by decide, by decide, by decide, by decide, by decide⟩
  · show Writer.write_varint (toU64 (i32Xor (i32Shl1 v32) (i32Sar31 v32))) ⟨w, none⟩ = _
    rw [sint32_value v32]
    exact (emits_write_varint _).1 w
  · show Writer.write_varint (toU64 (i64Xor (i64Shl1 v64) (i64Sar63 v64))) ⟨w, none⟩ = _
    rw [sint64_value v64]
    exact (emits_write_varint _).1 w

/-- Witness for the amended C2 at v32 = 3, v64 = -2. -/
theorem sint32_sint64_zigzag_witness :
    (-(2 ^ 31) : Int) ≤ 3 ∧ (3 : Int) < 2 ^ 31 ∧
    (-(2 ^ 63) : Int) ≤ -2 ∧ (-2 : Int) < 2 ^ 63 ∧
    Writer.write_sint64 (-2) ⟨[], none⟩ =
      ⟨⟨[] ++ varint (zigzag64_spec (-2)), none⟩, false⟩ :=
  ⟨by norm_num, by norm_num, by norm_num, by norm_num,
    (sint32_sint64_zigzag 3 (-2) [] (by norm_num) (by norm_num)
      (by norm_num) (by norm_num)).2.1⟩

/-- Counterexample to claim C3 as stated: called with an empty list,
write_packed_fixed_size still writes one byte — the zero length prefix
0x00 — rather than zero bytes. -/
theorem packed_fixed_size_empty_writes_byte :
    Writer.write_packed_fixed_size (fun b : Nat => [b]) [] 4 ⟨[], none⟩ =
      ⟨⟨[0], none⟩, false⟩ ∧
    Writer.write_packed_fixed_size (fun b : Nat => [b]) [] 4 ⟨[], none⟩ ≠
      ⟨⟨[], none⟩, false⟩ := by
  have h : Writer.write_packed_fixed_size (fun b : Nat => [b]) ([] : List Nat) 4 ⟨[], none⟩ =
      ⟨⟨[0], none⟩, false⟩ := by
    rw [Writer.write_packed_fixed_size]
    rw [show ((([] : List Nat).map (fun b => [b])).flatten).take
        (([] : List Nat).length * 4) = [] by simp]
    rw [(emits_write_bytes []).1 []]
    simp [varint]
  refine ⟨h, ?_⟩
  rw [h]
  decide

/-- Claim C3 (amended): with an empty list, write_packed_repeated_field,
write_packed_repeated_field_with_tag and write_packed_fixed_size_with_tag
write zero bytes (no tag, no length, no payload) and succeed, while
write_packed_fixed_size writes exactly the single byte 0x00, a zero length
prefix. -/
theorem packed_empty_behavior (M : Type) (write : Sink → M → WRes)
    (size : M → Nat) (itemBytes : M → List Nat) (tag item_size : Nat)
    (s : Sink) (w : List Nat) :
    Writer.write_packed_repeated_field ([] : List M) write size s = ⟨s, false⟩ ∧
    Writer.write_packed_repeated_field_with_tag tag ([] : List M) write size s = ⟨s, false⟩ ∧
    Writer.write_packed_fixed_size_with_tag itemBytes tag ([] : List M) item_size s =
      ⟨s, false⟩ ∧
    Writer.write_packed_fixed_size itemBytes ([] : List M) item_size ⟨w, none⟩ =
      ⟨⟨w ++ [0], none⟩, false⟩ := by
  refine ⟨rfl, rfl, rfl, ?_⟩
  rw [Writer.write_packed_fixed_size]
  rw [show ((([] : List M).map itemBytes).flatten).take (([] : List M).length * item_size)
      = [] by simp]
  rw [(emits_write_bytes []).1 w]
  simp [varint]

/-- Claim C4: write_message writes the varint of get_size as a length
prefix, then the message serialization; for a message whose write_message
emits exactly get_size bytes, the prefix precedes the payload and equals
its true byte count. -/
theorem write_message_length_prefixed (m : MessageWrite) (payload w : List Nat)
    (hw : ∀ u, m.write_message ⟨u, none⟩ = ⟨⟨u ++ payload, none⟩, false⟩)
    (hl : payload.length = m.get_size) :
    Writer.write_message m ⟨w, none⟩ =
      ⟨⟨w ++ (varint m.get_size ++ payload), none⟩, false⟩ ∧
    m.get_size = payload.length := by
  constructor
  · rw [Writer.write_message, (emits_write_varint m.get_size).1 w, wbind]
    simp only [Bool.false_eq_true, if_false]
    rw [hw]
    simp [List.append_assoc]
  · omega

/-- Witness for C4 at a concrete two-byte message. -/
theorem write_message_length_prefixed_witness :
    Writer.write_message ⟨2, fun s => s.write_all [8, 1]⟩ ⟨[], none⟩ =
      ⟨⟨[] ++ (varint 2 ++ [8, 1]), none⟩, false⟩ :=
  (write_message_length_prefixed ⟨2, fun s => s.write_all [8, 1]⟩ [8, 1] []
    (fun u => (emits_write_all [8, 1]).1 u) rfl).1

theorem emits_packed_with_tag {M : Type} (tag : Nat) (v : List M)
    (write : Sink → M → WRes) (size : M → Nat) (em : M → List Nat)
    (hne : v ≠ []) (hw : ∀ m ∈ v, Emits (fun s => write s m) (em m)) :
    Emits (Writer.write_packed_repeated_field_with_tag tag v write size)
      (varint tag ++ (varint ((v.map size).sum) ++ (v.map em).flatten)) := by
  have hE : v.isEmpty = false := by
    cases v with
    | nil => exact absurd rfl hne
    | cons a l => rfl
  have E := emits_seq (emits_write_varint tag)
    (emits_seq (emits_write_varint ((v.map size).sum)) (emits_writeSeq write em v hw))
  have efun : Writer.write_packed_repeated_field_with_tag tag v write size =
      fun s => wbind (Writer.write_varint tag s)
        (fun s2 => wbind (Writer.write_varint ((v.map size).sum) s2)
          (fun s3 => writeSeq write v s3)) := by
    funext s
    rw [Writer.write_packed_repeated_field_with_tag, hE]
    rfl
  rw [efun]
  exact E

/-- Claim C5: for a non-empty list whose item writer emits exactly size(m)
bytes per element, write_packed_repeated_field_with_tag writes the tag as a
varint, one varint length equal to the summed sizes, then each element in
order with no per-element tag; a packed repeated int32 field numbered 2
with values [1,2,3] encodes as [0x12, 0x03, 0x01, 0x02, 0x03]. -/
theorem packed_repeated_with_tag_layout {M : Type} (tag : Nat) (v : List M)
    (write : Sink → M → WRes) (size : M → Nat) (em : M → List Nat) (w : List Nat)
    (hne : v ≠ [])
    (hw : ∀ m ∈ v, Emits (fun s => write s m) (em m))
    (hs : ∀ m ∈ v, (em m).length = size m) :
    Writer.write_packed_repeated_field_with_tag tag v write size ⟨w, none⟩ =
      ⟨⟨w ++ (varint tag ++ (varint ((v.map size).sum) ++ (v.map em).flatten)), none⟩,
        false⟩ ∧
    ((v.map em).flatten).length = (v.map size).sum ∧
    Writer.write_packed_repeated_field_with_tag 18 [(1 : Int), 2, 3]
        (fun s m => Writer.write_int32 m s) (fun m => (varint (toU64 m)).length)
        ⟨[], none⟩ =
      ⟨⟨[0x12, 0x03, 0x01, 0x02, 0x03], none⟩, false⟩ := by
  refine ⟨(emits_packed_with_tag tag v write size em hne hw).1 w, ?_, ?_⟩
  · rw [List.length_flatten, List.map_map]
    exact congrArg List.sum (List.map_congr_left hs)
  · have C := (emits_packed_with_tag 18 [(1 : Int), 2, 3]
      (fun s m => Writer.write_int32 m s) (fun m => (varint (toU64 m)).length)
      (fun m => varint (toU64 m)) (by simp)
      (fun m _ => emits_write_varint (toU64 m))).1 []
    rw [C]
    have t1 : toU64 1 = 1 := by decide
    have t2 : toU64 2 = 2 := by decide
    have t3 : toU64 3 = 3 := by decide
    have v1 : varint 1 = [1] := by simp [varint]
    have v2 : varint 2 = [2] := by simp [varint]
    have v3 : varint 3 = [3] := by simp [varint]
    have v18 : varint 18 = [18] := by simp [varint]
    simp [t1, t2, t3, v1, v2, v3, v18]

/-- Witness for C5 at the concrete packed int32 field of the claim. -/
theorem packed_repeated_with_tag_layout_witness :
    Writer.write_packed_repeated_field_with_tag 18 [(1 : Int), 2, 3]
        (fun s m => Writer.write_int32 m s) (fun m => (varint (toU64 m)).length)
        ⟨[], none⟩ =
      ⟨⟨[] ++ (varint 18 ++ (varint (([(1 : Int), 2, 3].map
          (fun m => (varint (toU64 m)).length)).sum) ++
        ([(1 : Int), 2, 3].map (fun m => varint (toU64 m))).flatten)), none⟩, false⟩ :=
  (packed_repeated_with_tag_layout 18 [(1 : Int), 2, 3]
    (fun s m => Writer.write_int32 m s) (fun m => (varint (toU64 m)).length)
    (fun m => varint (toU64 m)) [] (by simp)
    (fun m _ => emits_write_varint (toU64 m))
    (fun m _ => rfl)).1

/-- Claim C8: every modelled writer primitive returns a result; `Emits`
states the full contract: on a sink failing after k accepted bytes, the
call reports the error to its caller with no local recovery, having
written exactly the first k bytes of its output — already-emitted bytes
(such as the length prefix of write_bytes) are not rolled back. -/
theorem writer_error_propagation (v t tag : Nat) (b : List Nat) (str : String)
    (v32 : Int) :
    Emits (Writer.write_varint v) (varint v) ∧
    Emits (Writer.write_tag t) (varint t) ∧
    Emits (Writer.write_bytes b) (varint b.length ++ b) ∧
    Emits (Writer.write_string str) (varint (strBytes str).length ++ strBytes str) ∧
    Emits (Writer.write_int32 v32) (varint (toU64 v32)) ∧
    Emits (Writer.write_int32_with_tag tag v32) (varint tag ++ varint (toU64 v32)) ∧
    (∀ w k, k < (varint b.length ++ b).length →
      Writer.write_bytes b ⟨w, some k⟩ =
        ⟨⟨w ++ (varint b.length ++ b).take k, some 0⟩, true⟩) := by
  refine ⟨emits_write_varint v, emits_write_varint t, emits_write_bytes b,
    emits_write_bytes (strBytes str), emits_write_varint (toU64 v32), ?_, ?_⟩
  · exact emits_seq (emits_write_varint tag) (emits_write_varint (toU64 v32))
  · exact fun w k hk => (emits_write_bytes b).2.2 w k hk

/-- Witness for C8: write_bytes [5] on a sink accepting one byte writes the
length prefix, fails on the payload, and the prefix byte stays written. -/
theorem writer_error_propagation_witness :
    Writer.write_bytes [5] ⟨[], some 1⟩ =
      ⟨⟨[] ++ (varint [5].length ++ [5]).take 1, some 0⟩, true⟩ :=
  (writer_error_propagation 0 0 0 [5] (String.mk []) 0).2.2.2.2.2.2 [] 1
    (by simp [varint])
